import Mathlib

/-!
Verification of the flake8-simplify rule engine against its specification.

Strings are modelled as `List Char`; Python slices such as `s[1:-1]` or
`s[3:-3]` become `drop`/`take`/`dropLast` combinations with the same
clamping behaviour. Each definition mirrors one function of the source
(`flake8_simplify/utils.py`, `flake8_simplify/__init__.py`,
`flake8_simplify/rules/*.py`); theorems settle the specification claims.
-/

namespace FlakeSimplify

/-! Text-rendering normalizations, from `flake8_simplify/utils.py`. -/

/-- Tests whether the first three characters are double quotes
(Python `string.startswith('"""')`). -/
def hasQ3Pre (s : List Char) : Bool :=
  s.take 3 == ['"', '"', '"']

/-- Tests whether the last three characters are double quotes
(Python `string.endswith('"""')`); the pattern is a palindrome, so this
is the prefix test on the reversed string. -/
def hasQ3Suf (s : List Char) : Bool :=
  hasQ3Pre s.reverse

/-- Tests whether the first three characters are single quotes
(Python `string.startswith("'''")`). -/
def hasSQ3Pre (s : List Char) : Bool :=
  s.take 3 == ['\'', '\'', '\'']

/-- Tests whether the last three characters are single quotes
(Python `string.endswith("'''")`). -/
def hasSQ3Suf (s : List Char) : Bool :=
  hasSQ3Pre s.reverse

/-- Python slice `s[3:-3]`. -/
def sliceMid3 (s : List Char) : List Char :=
  (s.drop 3).take (s.length - 6)

/-- `strip_parenthesis` from `utils.py`: if the string has length at least 2,
starts with `(` and ends with `)`, return `string[1:-1]`, else the string. -/
def strip_parenthesis (s : List Char) : List Char :=
  if 2 ≤ s.length ∧ s.head? = some '(' ∧ s.getLast? = some ')' then
    (s.drop 1).dropLast
  else s

/-- `strip_triple_quotes` from `utils.py`: a triple-double-quoted string with
no inner double quote collapses to a single-double-quoted one; the
`len(string) == 0` fallback of the source is kept although it never fires. -/
def strip_triple_quotes (s : List Char) : List Char :=
  if hasQ3Pre s ∧ hasQ3Suf s ∧ (sliceMid3 s).all (fun c => c != '"') then
    if ('"' :: (sliceMid3 s ++ ['"'])).length = 0 then ['"', '"']
    else '"' :: (sliceMid3 s ++ ['"'])
  else s

/-- `use_double_quotes` from `utils.py`: convert a triple-single-quoted
literal to triple-double quotes, or a single-quoted literal to double
quotes. -/
def use_double_quotes (s : List Char) : List Char :=
  if hasSQ3Pre s ∧ hasSQ3Suf s then
    '"' :: '"' :: '"' :: (sliceMid3 s ++ ['"', '"', '"'])
  else if 2 ≤ s.length ∧ s.head? = some '\'' ∧ s.getLast? = some '\'' then
    '"' :: ((s.drop 1).dropLast ++ ['"'])
  else s

/-- The three-step normalization applied by `to_source` in `utils.py`, in the
source's fixed order. -/
def normalize3 (s : List Char) : List Char :=
  use_double_quotes (strip_triple_quotes (strip_parenthesis s))

/-- Modelled from the spec: "the whole string is wrapped in exactly one
matching redundant pair" — the first character is `(`, the last is `)`, and
the parenthesis balance of every proper nonempty prefix stays positive, so
the opening parenthesis matches the final closing one. -/
def wrappedInOneMatchingPair (s : List Char) : Bool :=
  2 ≤ s.length && s.head? == some '(' && s.getLast? == some ')' &&
    (List.range (s.length - 1)).all (fun k =>
      0 < (s.take (k + 1)).foldl
        (fun a c => if c = '(' then a + 1 else if c = ')' then a - 1 else a)
        (0 : Int))

/-! Lemmas on the normalizations. -/

/-- After a successful triple-quote collapse, another pass leaves the result
unchanged: the collapsed string starts with `"` followed by a quote-free
middle, so it can never start with three double quotes again. -/
theorem stq_fixed_of_shape (mid : List Char) (h : mid.all (fun c => c != '"') = true) :
    strip_triple_quotes ('"' :: (mid ++ ['"'])) = '"' :: (mid ++ ['"']) := by
  unfold strip_triple_quotes
  rw [if_neg]
  rintro ⟨h1, -, -⟩
  cases mid with
  | nil => simp [hasQ3Pre, List.take] at h1
  | cons c t =>
      have hc : (c != '"') = true := by
        have := List.all_eq_true.mp h c (by simp)
        exact this
      simp only [bne_iff_ne, ne_eq] at hc
      cases t with
      | nil =>
          simp [hasQ3Pre, List.take] at h1
          exact hc h1
      | cons d t' =>
          simp [hasQ3Pre, List.take] at h1
          exact hc h1.1

/-- `strip_triple_quotes` either leaves its input unchanged or produces
`'"' :: mid ++ ['"']` with a quote-free middle. -/
theorem stq_cases (s : List Char) :
    strip_triple_quotes s = s ∨
      ∃ mid, mid.all (fun c => c != '"') = true ∧
        strip_triple_quotes s = '"' :: (mid ++ ['"']) := by
  unfold strip_triple_quotes
  split
  · next hcond =>
      right
      refine ⟨sliceMid3 s, hcond.2.2, ?_⟩
      rw [if_neg]
      simp
  · left; rfl

/-- `strip_triple_quotes` is idempotent. -/
theorem stq_idem (s : List Char) :
    strip_triple_quotes (strip_triple_quotes s) = strip_triple_quotes s := by
  rcases stq_cases s with h | ⟨mid, hmid, h⟩
  · rw [h, h]
  · rw [h, stq_fixed_of_shape mid hmid]

/-- Any string starting with a double quote is a fixed point of
`use_double_quotes`. -/
theorem udq_fixed_dq (t : List Char) :
    use_double_quotes ('"' :: t) = '"' :: t := by
  unfold use_double_quotes
  rw [if_neg, if_neg]
  · rintro ⟨-, h2, -⟩
    simp at h2
  · intro hcond
    have h1 := hcond.1
    cases t with
    | nil => simp [hasSQ3Pre, List.take] at h1
    | cons c t' =>
        cases t' with
        | nil => simp [hasSQ3Pre, List.take] at h1
        | cons d t'' => simp [hasSQ3Pre, List.take] at h1

/-- `use_double_quotes` either leaves its input unchanged or produces a
string starting with a double quote. -/
theorem udq_cases (s : List Char) :
    use_double_quotes s = s ∨ ∃ t, use_double_quotes s = '"' :: t := by
  unfold use_double_quotes
  split
  · right; exact ⟨_, rfl⟩
  · split
    · right; exact ⟨_, rfl⟩
    · left; rfl

/-- `use_double_quotes` is idempotent. -/
theorem udq_idem (s : List Char) :
    use_double_quotes (use_double_quotes s) = use_double_quotes s := by
  rcases udq_cases s with h | ⟨t, h⟩
  · rw [h, h]
  · rw [h, udq_fixed_dq]

/-! Claim C6: parenthesis stripping. -/

/-- C6, counterexample: the claim says a string whose outer parentheses do
not form one matching enclosing pair is returned unchanged, but
`strip_parenthesis` on `"(a) + (b)"` strips the outer characters anyway. -/
theorem strip_parenthesis_nonmatching_changed :
    strip_parenthesis ("(a) + (b)".toList) ≠ "(a) + (b)".toList := by decide

/-- C6, amended: `strip_parenthesis` removes the first and last characters
whenever they are `(` and `)` — in particular for every string wrapped in
exactly one matching redundant pair — but it does so even when those two
characters do not form a matching pair: `"(a) + (b)"` becomes `"a) + (b"`. -/
theorem strip_parenthesis_amended :
    (∀ s : List Char, wrappedInOneMatchingPair s = true →
        strip_parenthesis s = (s.drop 1).dropLast) ∧
      strip_parenthesis ("(a) + (b)".toList) = "a) + (b".toList := by
  constructor
  · intro s h
    simp only [wrappedInOneMatchingPair, Bool.and_eq_true, beq_iff_eq,
      decide_eq_true_eq] at h
    obtain ⟨⟨⟨h1, h2⟩, h3⟩, -⟩ := h
    unfold strip_parenthesis
    rw [if_pos ⟨h1, h2, h3⟩]
  · decide

/-- C6, witness for the amended theorem at a concrete wrapped string. -/
theorem strip_parenthesis_amended_witness :
    strip_parenthesis ("(ab)".toList) = (("(ab)".toList).drop 1).dropLast :=
  strip_parenthesis_amended.1 _ (by decide)

/-! Claim C7: idempotence of the three-step normalization pipeline. -/

/-- C7, counterexample: the pipeline is not idempotent; on `"((x))"` one
application yields `"(x)"` and a second application strips again. -/
theorem normalize3_not_idempotent :
    normalize3 (normalize3 ("((x))".toList)) ≠ normalize3 ("((x))".toList) := by
  decide

/-- C7, amended: of the three normalizations only `strip_triple_quotes` and
`use_double_quotes` are idempotent; `strip_parenthesis` is not, and hence
the fixed-order pipeline is not a fixed point on its own output — re-applying
it to the normalization of `"((x))"` strips a further parenthesis pair. -/
theorem normalize3_amended :
    (∀ s, strip_triple_quotes (strip_triple_quotes s) = strip_triple_quotes s) ∧
      (∀ s, use_double_quotes (use_double_quotes s) = use_double_quotes s) ∧
      normalize3 (normalize3 ("((x))".toList)) ≠ normalize3 ("((x))".toList) :=
  ⟨stq_idem, udq_idem, by decide⟩

/-! Syntax-tree model: the node kinds read by the verified rules, mirroring
the fields of the corresponding `ast` classes. Position metadata is a
`(lineno, col_offset)` pair. Context markers (`ast.Load`/`ast.Store`) carry
no information and are omitted. -/

/-- Source position: 1-based line and 0-based column, as in the host tree. -/
structure Pos where
  line : Nat
  col : Nat
deriving DecidableEq, Repr

/-- Constant values appearing in `ast.Constant` nodes in the modelled
fragment: booleans, integers and `None`. -/
inductive PyVal where
  | boolV (b : Bool)
  | intV (n : Int)
  | noneV
deriving DecidableEq, Repr

/-- Binary operators of augmented assignments (`ast.Add` vs. the rest). -/
inductive Aop where
  | add
  | sub
deriving DecidableEq, Repr

/-- The syntax-tree node. One constructor per modelled `ast` class, fields in
the order of the class's `_fields`. -/
inductive Node where
  | module (body : List Node)
  | nameE (pos : Pos) (id : List Char)
  | constE (pos : Pos) (v : PyVal)
  | attrE (pos : Pos) (value : Node) (attrName : List Char)
  | exprStmt (pos : Pos) (value : Node)
  | ret (pos : Pos) (value : Option Node)
  | assign (pos : Pos) (targets : List Node) (value : Node)
  | augAssign (pos : Pos) (target : Node) (op : Aop) (value : Node)
  | if_ (pos : Pos) (test : Node) (body : List Node) (orelse : List Node)
  | for_ (pos : Pos) (target : Node) (iter : Node) (body : List Node)
      (orelse : List Node)
  | try_ (pos : Pos) (body : List Node) (handlers : List Node)
      (orelse : List Node) (finalbody : List Node)
  | exceptHandler (pos : Pos) (etype : Option Node) (body : List Node)
  | classDef (pos : Pos) (cname : List Char) (bases : List Node)
      (decoratorList : List Node) (body : List Node)
  | funcDef (pos : Pos) (fname : List Char) (body : List Node)
  | asyncFuncDef (pos : Pos) (fname : List Char) (body : List Node)
  | continue_ (pos : Pos)
  | pass_ (pos : Pos)
  | raise_ (pos : Pos)

/-- `ast.iter_child_nodes`: the direct child nodes of a node, in field
order, list fields flattened in place. Childless marker nodes of the host
tree — context markers, operator objects, argument specifiers — are
omitted: they carry no position and no rule reads their metadata. -/
def children : Node → List Node
  | .module body => body
  | .nameE _ _ => []
  | .constE _ _ => []
  | .attrE _ v _ => [v]
  | .exprStmt _ v => [v]
  | .ret _ v => v.toList
  | .assign _ tgts v => tgts ++ [v]
  | .augAssign _ t _ v => [t, v]
  | .if_ _ t b o => t :: (b ++ o)
  | .for_ _ t it b o => t :: it :: (b ++ o)
  | .try_ _ b h o f => b ++ h ++ o ++ f
  | .exceptHandler _ et b => et.toList ++ b
  | .classDef _ _ bases decs b => bases ++ b ++ decs
  | .funcDef _ _ b => b
  | .asyncFuncDef _ _ b => b
  | .continue_ _ => []
  | .pass_ _ => []
  | .raise_ _ => []

/-- The node reached from `t` by following a list of child indices. -/
def nodeAt (t : Node) : List Nat → Option Node
  | [] => some t
  | i :: r =>
      match (children t)[i]? with
      | some c => nodeAt c r
      | none => none

/-! Text rendering (`to_source` from `utils.py`): render the subtree with
the host's code generator, then apply the three normalizations. The
generator is modelled on the expression fragment the verified rules render:
names print as their identifier, constants as their literal, attribute
access as `value.attr`. Statement nodes are never rendered by these rules;
they map to a fixed placeholder to keep the function total. -/

/-- The host code generator (`astor.to_source(node).strip()`) on the
modelled expression fragment. -/
def astorRender : Node → List Char
  | .nameE _ id => id
  | .constE _ (.boolV true) => "True".toList
  | .constE _ (.boolV false) => "False".toList
  | .constE _ (.intV n) => (toString n).toList
  | .constE _ .noneV => "None".toList
  | .attrE _ v a => astorRender v ++ '.' :: a
  | _ => "<stmt>".toList

/-- `to_source` from `utils.py`: `None` renders as the text `None`;
otherwise generate source and normalize. -/
def to_source : Option Node → List Char
  | none => "None".toList
  | some n => normalize3 (astorRender n)

/-! Diagnostics are `(line, column, message)` triples as produced by every
rule function. -/

/-- One rule finding. -/
abbrev Diag := Nat × Nat × List Char

/-- Message template `SIM103`. -/
def SIM103msg (cond : List Char) : List Char :=
  "SIM103 Return the condition ".toList ++ cond ++ " directly".toList

/-- Message `SIM107`. -/
def SIM107msg : List Char :=
  "SIM107 Don't use return in try/except and finally".toList

/-- Message template `SIM108`. -/
def SIM108msg (assignT body cond orelse : List Char) : List Char :=
  "SIM108 Use ternary operator '".toList ++ assignT ++ " = ".toList ++ body
    ++ " if ".toList ++ cond ++ " else ".toList ++ orelse
    ++ "' instead of if-else-block".toList

/-- Message template `SIM113` of `rules/ast_for.py`. -/
def SIM113msg (v : List Char) : List Char :=
  "SIM113 Use enumerate for '".toList ++ v ++ "'".toList

/-- Message template `SIM119`. -/
def SIM119msg (classname : List Char) : List Char :=
  "SIM119 Use a dataclass for 'class ".toList ++ classname ++ "'".toList

/-! Rule SIM103 (`_get_sim103` in `__init__.py`, identical to `get_sim103`
in `rules/ast_if.py`). -/

/-- `_get_sim103`: fire when the body is a single return of a boolean
constant and the else branch is a single return of a boolean constant. -/
def _get_sim103 (pos : Pos) (test : Node) (body orelse : List Node) :
    List Diag :=
  match body, orelse with
  | [.ret _ (some (.constE _ (.boolV _)))],
    [.ret _ (some (.constE _ (.boolV _)))] =>
      [(pos.line, pos.col, SIM103msg (to_source (some test)))]
  | _, _ => []

/-! Rule SIM107 (`_get_sim107` in `__init__.py`, identical to `get_sim107`
in `rules/ast_try.py`). -/

/-- Tests whether a statement node is `ast.Return`. -/
def stmtIsReturn : Node → Bool
  | .ret _ _ => true
  | _ => false

/-- `_get_sim107`: the source scans the try body for a top-level return,
scans `node.handlers` — the handler nodes themselves, not their bodies —
for a return, and takes the first top-level return of the finally block;
it fires at that return when (try-return or handler-return) holds. -/
def _get_sim107 (body handlers _orelse finalbody : List Node) : List Diag :=
  let tryHasReturn := body.any stmtIsReturn
  let exceptHasReturn := handlers.any stmtIsReturn
  match finalbody.find? stmtIsReturn with
  | some (.ret p _) =>
      if tryHasReturn || exceptHasReturn then [(p.line, p.col, SIM107msg)]
      else []
  | _ => []

/-! Rule SIM108 (`get_sim108` in `rules/ast_if.py`, including the
enclosing-conditional suppression; `_get_sim108` in `__init__.py` is the
same rule without the suppression). -/

/-- Tests whether a statement is an assignment whose first target is a name
with the given identifier (the `n.targets[0]` check of the suppression
loop). -/
def assignsName (tid : List Char) : Node → Bool
  | .assign _ (.nameE _ id :: _) _ => id == tid
  | _ => false

/-- The suppression of `get_sim108`: the node's parent is an if-statement
and some statement of the parent's body assigns the same single name. -/
def sim108Suppressed (tid : List Char) (parent : Option Node) : Bool :=
  match parent with
  | some (.if_ _ _ pbody _) => pbody.any (assignsName tid)
  | _ => false

/-- `get_sim108`: body and else branch are single assignments to the same
single name; unless suppressed by the enclosing conditional, render the
ternary replacement message and fire only when the message does not exceed
79 characters. -/
def get_sim108 (pos : Pos) (test : Node) (body orelse : List Node)
    (parent : Option Node) : List Diag :=
  match body, orelse with
  | [.assign _ [.nameE pt tid] bval], [.assign _ [.nameE _po oid] oval] =>
      if tid = oid then
        if sim108Suppressed tid parent then []
        else
          let msg := SIM108msg (to_source (some (.nameE pt tid)))
            (to_source (some bval)) (to_source (some test))
            (to_source (some oval))
          if 79 < msg.length then [] else [(pos.line, pos.col, msg)]
      else []
  | _, _ => []

/-! Rule SIM113 (`get_sim113` in `rules/ast_for.py`) and its helpers from
`utils.py`. -/

/-- `body_contains_continue` from `utils.py`: a statement list contains a
continue directly, or inside the body of a nested if-statement,
recursively. -/
def body_contains_continue : List Node → Bool
  | [] => false
  | s :: rest =>
      (match s with
       | .continue_ _ => true
       | .if_ _ _ b _ => body_contains_continue b
       | _ => false) || body_contains_continue rest

/-- `is_constant_increase` from `utils.py` on the fields of an augmented
assignment: the operator is `Add` and the value is the constant `1`
(Python's `True == 1` also passes). -/
def is_constant_increase (op : Aop) (value : Node) : Bool :=
  (match op with | .add => true | _ => false) &&
  (match value with
   | .constE _ (.intV n) => n == 1
   | .constE _ (.boolV b) => b
   | _ => false)

/-- `get_sim113` from `rules/ast_for.py`. `olderSiblings` are the statements
preceding the loop in the parent's body, as collected by the source's
identity-scan; the source's final sibling-walk loop has no effect and is
omitted. -/
def get_sim113 (body olderSiblings : List Node) : List Diag :=
  if body_contains_continue body then []
  else
    let variable_candidates := body.filterMap (fun e =>
      match e with
      | .augAssign _ (.nameE p id) op v =>
          if is_constant_increase op v then some (Node.nameE p id) else none
      | _ => none)
    let str_candidates := variable_candidates.map (fun x => to_source (some x))
    let matched := olderSiblings.filterMap (fun n =>
      match n with
      | .assign _ [.nameE p id] _ =>
          if to_source (some (Node.nameE p id)) ∈ str_candidates then
            some (Node.nameE p id)
          else none
      | _ => none)
    if matched.length = 0 then []
    else matched.map (fun mt =>
      match mt with
      | .nameE p id => (p.line, p.col, SIM113msg (to_source (some (Node.nameE p id))))
      | _ => (0, 0, []))

/-! Rule SIM119 (`_get_sim119` in `__init__.py`, identical to `get_sim119`
in `rules/ast_classdef.py`). -/

/-- The fixed boilerplate method-name set of SIM119. -/
def dataclassFunctions : List (List Char) :=
  ["__init__".toList, "__eq__".toList, "__hash__".toList,
   "__repr__".toList, "__str__".toList]

/-- Tests whether an expression node is an attribute access. -/
def isAttrE : Node → Bool
  | .attrE _ _ _ => true
  | _ => false

/-- Tests whether an expression node is a plain name. -/
def isNameE : Node → Bool
  | .nameE _ _ => true
  | _ => false

/-- The constructor scan of SIM119: walk the `__init__` body until the
first statement that is not an assignment, or has a non-attribute target,
or a non-name value; such a statement makes the constructor complex. -/
def initBodyComplex : List Node → Bool
  | [] => false
  | el :: rest =>
      match el with
      | .assign _ tgts v =>
          if tgts.any (fun t => !(isAttrE t)) || !(isNameE v) then true
          else initBodyComplex rest
      | _ => true

/-- The three flags threaded by the SIM119 class-body loop. -/
structure Sim119State where
  hasOnly : Bool
  hasAny : Bool
  hasComplex : Bool
deriving DecidableEq, Repr

/-- One method's effect on the SIM119 flags: any method sets `hasAny`; an
`__init__` with a complex body sets `hasComplex`; a name outside the
boilerplate set clears `hasOnly`. -/
def sim119Method (st : Sim119State) (fname : List Char) (fbody : List Node) :
    Sim119State :=
  let st := { st with hasAny := true }
  let st :=
    if fname = "__init__".toList ∧ initBodyComplex fbody then
      { st with hasComplex := true }
    else st
  if fname ∈ dataclassFunctions then st else { st with hasOnly := false }

/-- The SIM119 loop body: synchronous and asynchronous function definitions
are treated alike; other class-body elements leave the flags unchanged. -/
def sim119Step (st : Sim119State) (body_el : Node) : Sim119State :=
  match body_el with
  | .funcDef _ f b => sim119Method st f b
  | .asyncFuncDef _ f b => sim119Method st f b
  | _ => st

/-- `_get_sim119`: no decorators and no bases, fold the flags over the class
body, fire when the class has methods, only boilerplate-named ones, and no
complex constructor. -/
def _get_sim119 (pos : Pos) (cname : List Char)
    (bases decoratorList body : List Node) : List Diag :=
  if decoratorList.length = 0 ∧ bases.length = 0 then
    let st := body.foldl sim119Step ⟨true, false, false⟩
    if st.hasAny ∧ st.hasOnly ∧ !st.hasComplex then
      [(pos.line, pos.col, SIM119msg cname)]
    else []
  else []

/-- The method view of a class-body element: synchronous and asynchronous
function definitions expose their name and body; anything else is not a
method. -/
def methodParts : Node → Option (List Char × List Node)
  | .funcDef _ f b => some (f, b)
  | .asyncFuncDef _ f b => some (f, b)
  | _ => none

/-! Claim C2: the return-in-finally rule. -/

/-- C2: the source's handler scan tests the `ExceptHandler` nodes
themselves for being returns, so a return inside a handler body is never
detected. On `try: pass / except: return 2 / finally: return 3` the claim
demands a diagnostic at the finally-return (line 6, column 8), yet the rule
returns nothing, although the handler body and the finally block both
contain a return statement. -/
theorem sim107_handler_return_not_detected :
    _get_sim107
        [.pass_ ⟨2, 4⟩]
        [.exceptHandler ⟨3, 0⟩ none
          [.ret ⟨4, 8⟩ (some (.constE ⟨4, 15⟩ (.intV 2)))]]
        []
        [.ret ⟨6, 8⟩ (some (.constE ⟨6, 15⟩ (.intV 3)))] = [] ∧
      ([Node.ret ⟨4, 8⟩ (some (.constE ⟨4, 15⟩ (.intV 2)))].any stmtIsReturn
          = true) ∧
      ([Node.ret ⟨6, 8⟩ (some (.constE ⟨6, 15⟩ (.intV 3)))].any stmtIsReturn
          = true) := by
  decide

/-! Claim C3: the boolean short-circuit return rule. -/

/-- C3, counterexample: with both branches returning the literal `True`
the claim says SIM103 must not fire (the bodies are neither True/False nor
False/True), but the rule fires and always suggests returning the condition
directly. -/
theorem sim103_fires_on_true_true :
    _get_sim103 ⟨1, 0⟩ (.nameE ⟨1, 3⟩ ['a'])
        [.ret ⟨2, 4⟩ (some (.constE ⟨2, 11⟩ (.boolV true)))]
        [.ret ⟨4, 4⟩ (some (.constE ⟨4, 11⟩ (.boolV true)))]
      = [(1, 0, SIM103msg ['a'])] := by
  decide

/-- C3, amended: SIM103 fires exactly when the body is a single return of a
boolean literal and the else branch is a single return of a boolean literal
— in any combination, including True/True and False/False — and the single
diagnostic always carries the message "Return the condition … directly" at
the if-statement's position; no negated suggestion exists. -/
theorem sim103_amended :
    (∀ (pos : Pos) (test : Node) (p1 q1 : Pos) (b1 : Bool) (p2 q2 : Pos)
        (b2 : Bool),
        _get_sim103 pos test [.ret p1 (some (.constE q1 (.boolV b1)))]
            [.ret p2 (some (.constE q2 (.boolV b2)))]
          = [(pos.line, pos.col, SIM103msg (to_source (some test)))]) ∧
      ∀ (pos : Pos) (test : Node) (body orelse : List Node),
        _get_sim103 pos test body orelse ≠ [] →
          (∃ p1 q1 b1, body = [Node.ret p1 (some (.constE q1 (.boolV b1)))])
            ∧ ∃ p2 q2 b2,
                orelse = [Node.ret p2 (some (.constE q2 (.boolV b2)))] := by
  constructor
  · intro pos test p1 q1 b1 p2 q2 b2
    rfl
  · intro pos test body orelse h
    unfold _get_sim103 at h
    split at h
    · exact ⟨⟨_, _, _, rfl⟩, ⟨_, _, _, rfl⟩⟩
    · exact absurd rfl h

/-- C3, witness: the amended theorem's second part applied to a concrete
firing instance. -/
theorem sim103_amended_witness :
    (∃ p1 q1 b1,
        [Node.ret ⟨2, 4⟩ (some (.constE ⟨2, 11⟩ (.boolV true)))]
          = [Node.ret p1 (some (.constE q1 (.boolV b1)))]) ∧
      ∃ p2 q2 b2,
        [Node.ret ⟨4, 4⟩ (some (.constE ⟨4, 11⟩ (.boolV false)))]
          = [Node.ret p2 (some (.constE q2 (.boolV b2)))] :=
  sim103_amended.2 ⟨1, 0⟩ (.nameE ⟨1, 3⟩ ['a']) _ _ (by decide)

/-! Claim C4: the ternary rule's line-length budget. -/

/-- C4, counterexample: a qualifying if/else whose rendered replacement
`x = aaaaaaaaaaaaaaaaaaaaaaaaaa if c else d` has 42 ≤ 79 characters, yet
SIM108 stays silent because the budget is applied to the whole message
(97 characters), not to the replacement expression. -/
theorem sim108_replacement_within_budget_no_fire :
    get_sim108 ⟨1, 0⟩ (.nameE ⟨1, 3⟩ ['c'])
        [.assign ⟨2, 4⟩ [.nameE ⟨2, 4⟩ ['x']]
          (.nameE ⟨2, 8⟩ "aaaaaaaaaaaaaaaaaaaaaaaaaa".toList)]
        [.assign ⟨4, 4⟩ [.nameE ⟨4, 4⟩ ['x']] (.nameE ⟨4, 8⟩ ['d'])]
        none = [] ∧
      ("x = aaaaaaaaaaaaaaaaaaaaaaaaaa if c else d".toList).length ≤ 79 := by
  decide

/-- C4, amended: for a qualifying, unsuppressed if/else the rule fires if
and only if the full diagnostic message — template plus rendered parts, 55
characters longer than the replacement expression — does not exceed 79
characters, and then fires exactly once at the if-statement's position. -/
theorem sim108_amended :
    ∀ (pos : Pos) (test : Node) (pa pt : Pos) (tid : List Char) (bval : Node)
      (pb po : Pos) (oval : Node) (parent : Option Node),
      sim108Suppressed tid parent = false →
      get_sim108 pos test [.assign pa [.nameE pt tid] bval]
          [.assign pb [.nameE po tid] oval] parent
        = if 79 < (SIM108msg (to_source (some (.nameE pt tid)))
              (to_source (some bval)) (to_source (some test))
              (to_source (some oval))).length
          then []
          else [(pos.line, pos.col,
            SIM108msg (to_source (some (.nameE pt tid)))
              (to_source (some bval)) (to_source (some test))
              (to_source (some oval)))] := by
  intro pos test pa pt tid bval pb po oval parent hsup
  unfold get_sim108
  dsimp only
  rw [if_pos rfl, if_neg (by simp [hsup])]

/-- C4, witness: the amended theorem at a short concrete instance. -/
theorem sim108_amended_witness :
    get_sim108 ⟨1, 0⟩ (.nameE ⟨1, 3⟩ ['a'])
        [.assign ⟨2, 4⟩ [.nameE ⟨2, 4⟩ ['b']] (.nameE ⟨2, 8⟩ ['c'])]
        [.assign ⟨4, 4⟩ [.nameE ⟨4, 4⟩ ['b']] (.nameE ⟨4, 8⟩ ['d'])] none
      = if 79 < (SIM108msg (to_source (some (.nameE ⟨2, 4⟩ ['b'])))
            (to_source (some (.nameE ⟨2, 8⟩ ['c'])))
            (to_source (some (.nameE ⟨1, 3⟩ ['a'])))
            (to_source (some (.nameE ⟨4, 8⟩ ['d'])))).length
        then []
        else [(1, 0,
          SIM108msg (to_source (some (.nameE ⟨2, 4⟩ ['b'])))
            (to_source (some (.nameE ⟨2, 8⟩ ['c'])))
            (to_source (some (.nameE ⟨1, 3⟩ ['a'])))
            (to_source (some (.nameE ⟨4, 8⟩ ['d']))))] :=
  sim108_amended ⟨1, 0⟩ (.nameE ⟨1, 3⟩ ['a']) ⟨2, 4⟩ ⟨2, 4⟩ ['b']
    (.nameE ⟨2, 8⟩ ['c']) ⟨4, 4⟩ ⟨4, 4⟩ (.nameE ⟨4, 8⟩ ['d']) none (by decide)

/-! Claim C8: a continue anywhere in the loop body suppresses SIM113. -/

/-- C8: whenever the loop body contains a continue — directly or inside the
body of a nested conditional, recursively — SIM113 reports nothing,
whatever counter increments and older siblings are present. -/
theorem sim113_continue_suppresses (body olderSiblings : List Node)
    (h : body_contains_continue body = true) :
    get_sim113 body olderSiblings = [] := by
  unfold get_sim113
  rw [if_pos h]

/-- C8, witness: a loop body with a continue nested inside an if, followed
by a counter increment whose counter is initialized just before the loop. -/
theorem sim113_continue_suppresses_witness :
    get_sim113
        [.if_ ⟨2, 4⟩ (.nameE ⟨2, 7⟩ ['b']) [.continue_ ⟨3, 8⟩] [],
         .augAssign ⟨4, 4⟩ (.nameE ⟨4, 4⟩ ['i']) .add
           (.constE ⟨4, 9⟩ (.intV 1))]
        [.assign ⟨1, 0⟩ [.nameE ⟨1, 0⟩ ['i']] (.constE ⟨1, 4⟩ (.intV 0))]
      = [] :=
  sim113_continue_suppresses _ _ (by simp [body_contains_continue])

/-! Claim C5: the dataclass-candidate rule. -/

/-- C5, counterexample: a class whose only method is an asynchronous
`__repr__` still triggers SIM119 — an async method does not suppress the
suggestion; only a method name outside the boilerplate set would. -/
theorem sim119_fires_despite_async :
    _get_sim119 ⟨2, 0⟩ "Foo".toList [] []
        [.asyncFuncDef ⟨3, 4⟩ "__repr__".toList
          [.ret ⟨4, 8⟩ (some (.constE ⟨4, 15⟩ (.intV 1)))]]
      = [(2, 0, SIM119msg "Foo".toList)] := by
  decide

/-- The method branch of the SIM119 loop always records that the class has
a method. -/
theorem sim119Method_hasAny (st : Sim119State) (f : List Char)
    (b : List Node) : (sim119Method st f b).hasAny = true := by
  unfold sim119Method
  dsimp only
  split
  · split <;> rfl
  · split <;> rfl

/-- The method branch of the SIM119 loop keeps `hasOnly` exactly when the
method name is boilerplate. -/
theorem sim119Method_hasOnly (st : Sim119State) (f : List Char)
    (b : List Node) :
    (sim119Method st f b).hasOnly
      = (st.hasOnly && decide (f ∈ dataclassFunctions)) := by
  unfold sim119Method
  dsimp only
  split
  · next hmem =>
      rw [decide_eq_true hmem, Bool.and_true]
      split <;> rfl
  · next hmem =>
      rw [decide_eq_false hmem, Bool.and_false]

/-- The method branch of the SIM119 loop adds exactly the complex-`__init__`
flag to `hasComplex`. -/
theorem sim119Method_hasComplex (st : Sim119State) (f : List Char)
    (b : List Node) :
    (sim119Method st f b).hasComplex
      = (st.hasComplex || (f == "__init__".toList && initBodyComplex b)) := by
  have hiff : (f = "__init__".toList ∧ initBodyComplex b = true)
      ↔ (f == "__init__".toList && initBodyComplex b) = true := by
    constructor
    · rintro ⟨h1, h2⟩
      simp [h1, h2]
    · intro h
      rw [Bool.and_eq_true] at h
      exact ⟨eq_of_beq h.1, h.2⟩
  unfold sim119Method
  dsimp only
  simp only [hiff]
  cases hg : (f == "__init__".toList && initBodyComplex b)
  · simp only [hg, Bool.or_false, Bool.false_eq_true, if_false]
    split <;> rfl
  · simp only [hg, Bool.or_true, if_true]
    split <;> rfl

/-- The SIM119 flag fold computes, over any initial flags: `hasAny` as
"some element is a method", `hasOnly` as "every method's name is in the
boilerplate set", and `hasComplex` as "some `__init__` has a complex
body". Synchronous and asynchronous methods contribute identically. -/
theorem sim119_fold_spec (body : List Node) (st : Sim119State) :
    body.foldl sim119Step st =
      ⟨st.hasOnly && body.all (fun n =>
          match methodParts n with
          | some (f, _) => decide (f ∈ dataclassFunctions)
          | none => true),
        st.hasAny || body.any (fun n => (methodParts n).isSome),
        st.hasComplex || body.any (fun n =>
          match methodParts n with
          | some (f, fb) => f == "__init__".toList && initBodyComplex fb
          | none => false)⟩ := by
  induction body generalizing st with
  | nil =>
      simp only [List.foldl_nil, List.all_nil, Bool.and_true, List.any_nil,
        Bool.or_false]
  | cons n rest ih =>
      rw [List.foldl_cons, ih]
      cases n with
      | funcDef p f b =>
          have hstep : sim119Step st (.funcDef p f b) = sim119Method st f b :=
            rfl
          rw [hstep]
          simp only [List.all_cons, List.any_cons, methodParts,
            Option.isSome_some, Sim119State.mk.injEq]
          refine ⟨?_, ?_, ?_⟩
          · rw [sim119Method_hasOnly, Bool.and_assoc]
          · rw [sim119Method_hasAny]
            simp
          · rw [sim119Method_hasComplex, Bool.or_assoc]
      | asyncFuncDef p f b =>
          have hstep :
              sim119Step st (.asyncFuncDef p f b) = sim119Method st f b :=
            rfl
          rw [hstep]
          simp only [List.all_cons, List.any_cons, methodParts,
            Option.isSome_some, Sim119State.mk.injEq]
          refine ⟨?_, ?_, ?_⟩
          · rw [sim119Method_hasOnly, Bool.and_assoc]
          · rw [sim119Method_hasAny]
            simp
          · rw [sim119Method_hasComplex, Bool.or_assoc]
      | module b => simp [sim119Step, methodParts]
      | nameE p i => simp [sim119Step, methodParts]
      | constE p v => simp [sim119Step, methodParts]
      | attrE p v a => simp [sim119Step, methodParts]
      | exprStmt p v => simp [sim119Step, methodParts]
      | ret p v => simp [sim119Step, methodParts]
      | assign p t v => simp [sim119Step, methodParts]
      | augAssign p t o v => simp [sim119Step, methodParts]
      | if_ p t b o => simp [sim119Step, methodParts]
      | for_ p t it b o => simp [sim119Step, methodParts]
      | try_ p b h o f => simp [sim119Step, methodParts]
      | exceptHandler p e b => simp [sim119Step, methodParts]
      | classDef p c ba d b => simp [sim119Step, methodParts]
      | continue_ p => simp [sim119Step, methodParts]
      | pass_ p => simp [sim119Step, methodParts]
      | raise_ p => simp [sim119Step, methodParts]

/-- A guarded singleton is nonempty exactly when its guard holds. -/
theorem ite_singleton_ne_nil {α : Type} (P : Prop) [Decidable P] (x : α) :
    (if P then [x] else []) ≠ [] ↔ P := by
  split
  · next h => simp [h]
  · next h => simp [h]

/-- The per-class `any` over method presence matches its quantifier form. -/
theorem sim119_hasAny_iff (body : List Node) :
    body.any (fun n => (methodParts n).isSome) = true ↔
      ∃ n ∈ body, (methodParts n).isSome = true := by
  simp [List.any_eq_true]

/-- The per-class `all` over method names matches its quantifier form. -/
theorem sim119_namesOnly_iff (body : List Node) :
    (body.all fun n =>
        match methodParts n with
        | some (f, _) => decide (f ∈ dataclassFunctions)
        | none => true) = true ↔
      ∀ n ∈ body, ∀ f fb, methodParts n = some (f, fb) →
        f ∈ dataclassFunctions := by
  rw [List.all_eq_true]
  constructor
  · intro h n hn f fb heq
    have hx := h n hn
    rw [heq] at hx
    exact of_decide_eq_true hx
  · intro h n hn
    cases hmp : methodParts n with
    | none => simp
    | some pr =>
        obtain ⟨f, fb⟩ := pr
        simp only
        exact decide_eq_true (h n hn f fb hmp)

/-- The per-class `any` over complex constructors matches its quantifier
form. -/
theorem sim119_initOk_iff (body : List Node) :
    (body.any fun n =>
        match methodParts n with
        | some (f, fb) => f == "__init__".toList && initBodyComplex fb
        | none => false) = false ↔
      ∀ n ∈ body, ∀ fb, methodParts n = some ("__init__".toList, fb) →
        initBodyComplex fb = false := by
  rw [← Bool.not_eq_true, List.any_eq_true]
  constructor
  · intro h n hn fb heq
    by_contra hc
    rw [Bool.not_eq_false] at hc
    exact h ⟨n, hn, by rw [heq]; simp [hc]⟩
  · rintro h ⟨n, hn, hp⟩
    cases hmp : methodParts n with
    | none => rw [hmp] at hp; exact Bool.noConfusion hp
    | some pr =>
        obtain ⟨f, fb⟩ := pr
        rw [hmp] at hp
        simp only [Bool.and_eq_true, beq_iff_eq] at hp
        have := h n hn fb (by rw [hmp, hp.1])
        rw [this] at hp
        exact Bool.noConfusion hp.2

/-- C5, amended: SIM119 fires exactly on classes with no bases and no
decorators that have at least one method, all of whose methods — whether
synchronous or asynchronous — bear boilerplate names, and whose every
`__init__` body consists solely of assignments with attribute targets and
a plain-name value; asynchrony itself never suppresses the suggestion. -/
theorem sim119_amended (pos : Pos) (cname : List Char)
    (bases decoratorList body : List Node) :
    _get_sim119 pos cname bases decoratorList body ≠ [] ↔
      (decoratorList = [] ∧ bases = [] ∧
        (∃ n ∈ body, (methodParts n).isSome = true) ∧
        (∀ n ∈ body, ∀ f fb, methodParts n = some (f, fb) →
          f ∈ dataclassFunctions) ∧
        ∀ n ∈ body, ∀ fb, methodParts n = some ("__init__".toList, fb) →
          initBodyComplex fb = false) := by
  unfold _get_sim119
  rw [sim119_fold_spec]
  by_cases hd : decoratorList.length = 0 ∧ bases.length = 0
  · rw [if_pos hd]
    have hdec : decoratorList = [] := List.length_eq_zero.mp hd.1
    have hbas : bases = [] := List.length_eq_zero.mp hd.2
    subst hdec hbas
    rw [ite_singleton_ne_nil]
    dsimp only
    simp only [Bool.false_or, Bool.true_and, true_and]
    rw [sim119_hasAny_iff, sim119_namesOnly_iff]
    rw [Bool.not_eq_true', sim119_initOk_iff]
  · rw [if_neg hd]
    refine iff_of_false (by simp) ?_
    rintro ⟨h1, h2, -⟩
    exact hd ⟨by rw [h1]; rfl, by rw [h2]; rfl⟩

/-! Deep structural equality (`is_stmt_equal` / `is_body_same` from
`utils.py`). The host's bounded call stack is modelled by a fuel counter:
every comparison call consumes fuel, and exhausted fuel is the
`RecursionError` the source catches. Position fields (`lineno`,
`col_offset`) and the metadata decorations are excluded from comparison,
as in the source's `specials` list; remaining fields are compared
recursively in field order, lists element-wise after a length check,
scalars by equality. -/

mutual

/-- The same-kind field comparison of `is_stmt_equal` at remaining depth
`f`: non-position fields are compared in field order through the
fuel-charging entry `isStmtEqualSub`. -/
def isStmtEqualBody : Nat → Node → Node → Except Unit Bool
  | f, a, b =>
      match a, b with
      | .module b1, .module b2 => stmtListEqF f b1 b2
      | .nameE _ i1, .nameE _ i2 => pure (i1 == i2)
      | .constE _ v1, .constE _ v2 => pure (v1 == v2)
      | .attrE _ x1 a1, .attrE _ x2 a2 => do
          let r ← isStmtEqualSub f x1 x2
          if r then pure (a1 == a2) else pure false
      | .exprStmt _ v1, .exprStmt _ v2 => isStmtEqualSub f v1 v2
      | .ret _ v1, .ret _ v2 => stmtOptEqF f v1 v2
      | .assign _ t1 v1, .assign _ t2 v2 => do
          let r ← stmtListEqF f t1 t2
          if r then isStmtEqualSub f v1 v2 else pure false
      | .augAssign _ t1 o1 v1, .augAssign _ t2 o2 v2 => do
          let r ← isStmtEqualSub f t1 t2
          if r then
            if o1 == o2 then isStmtEqualSub f v1 v2 else pure false
          else pure false
      | .if_ _ t1 b1 e1, .if_ _ t2 b2 e2 => do
          let r ← isStmtEqualSub f t1 t2
          if r then do
            let rb ← stmtListEqF f b1 b2
            if rb then stmtListEqF f e1 e2 else pure false
          else pure false
      | .for_ _ tg1 it1 b1 e1, .for_ _ tg2 it2 b2 e2 => do
          let r ← isStmtEqualSub f tg1 tg2
          if r then do
            let ri ← isStmtEqualSub f it1 it2
            if ri then do
              let rb ← stmtListEqF f b1 b2
              if rb then stmtListEqF f e1 e2 else pure false
            else pure false
          else pure false
      | .try_ _ b1 h1 o1 f1, .try_ _ b2 h2 o2 f2 => do
          let rb ← stmtListEqF f b1 b2
          if rb then do
            let rh ← stmtListEqF f h1 h2
            if rh then do
              let ro ← stmtListEqF f o1 o2
              if ro then stmtListEqF f f1 f2 else pure false
            else pure false
          else pure false
      | .exceptHandler _ e1 b1, .exceptHandler _ e2 b2 => do
          let re ← stmtOptEqF f e1 e2
          if re then stmtListEqF f b1 b2 else pure false
      | .classDef _ n1 ba1 d1 b1, .classDef _ n2 ba2 d2 b2 =>
          if n1 == n2 then do
            let rb ← stmtListEqF f ba1 ba2
            if rb then do
              let rd ← stmtListEqF f d1 d2
              if rd then stmtListEqF f b1 b2 else pure false
            else pure false
          else pure false
      | .funcDef _ n1 b1, .funcDef _ n2 b2 =>
          if n1 == n2 then stmtListEqF f b1 b2 else pure false
      | .asyncFuncDef _ n1 b1, .asyncFuncDef _ n2 b2 =>
          if n1 == n2 then stmtListEqF f b1 b2 else pure false
      | .continue_ _, .continue_ _ => pure true
      | .pass_ _, .pass_ _ => pure true
      | .raise_ _, .raise_ _ => pure true
      | _, _ => pure false
termination_by f _ _ => (f + 1, 0)

/-- One comparison call: entering with no fuel left is the
`RecursionError`; otherwise dispatch on the node pair one level deeper. -/
def isStmtEqualSub : Nat → Node → Node → Except Unit Bool
  | 0, _, _ => .error ()
  | f + 1, a, b => isStmtEqualBody f a b
termination_by f _ _ => (f, 1)

/-- Element-wise list comparison with an upfront length check, as in the
source's list branch. -/
def stmtListEqF : Nat → List Node → List Node → Except Unit Bool
  | _, [], [] => pure true
  | f, a :: as, b :: bs =>
      if as.length == bs.length then do
        let r ← isStmtEqualSub f a b
        if r then stmtListEqF f as bs else pure false
      else pure false
  | _, _, _ => pure false
termination_by f as _ => (f, as.length + 3)

/-- Comparison of optional child fields (`None` equals only `None`). -/
def stmtOptEqF : Nat → Option Node → Option Node → Except Unit Bool
  | _, none, none => pure true
  | f, some a, some b => isStmtEqualSub f a b
  | _, _, _ => pure false
termination_by f _ _ => (f, 2)

end

/-- `is_stmt_equal` from `utils.py`, fuel-bounded: nodes of different kinds
are unequal; nodes of the same kind compare their non-position fields
recursively; exhausting the recursion bound raises. -/
def is_stmt_equal_f (fuel : Nat) (a b : Node) : Except Unit Bool :=
  isStmtEqualSub fuel a b

/-- The comparison of one statement pair of `is_body_same`: a
`RecursionError` from the recursive comparison is caught and downgraded to
"not equal". -/
def bodyPairEqual (fuel : Nat) (a b : Node) : Bool :=
  match is_stmt_equal_f fuel a b with
  | .ok r => r
  | .error _ => false

/-- The pair loop of `is_body_same` over the zipped statement lists. -/
def isBodySameGo (fuel : Nat) : List Node → List Node → Bool
  | a :: as, b :: bs =>
      if bodyPairEqual fuel a b then isBodySameGo fuel as bs else false
  | _, _ => true

/-- `is_body_same` from `utils.py`: false on a length mismatch, otherwise
compare the zipped pairs, treating a recursion-exhausted pair as unequal. -/
def is_body_same_f (fuel : Nat) (body1 body2 : List Node) : Bool :=
  if body1.length ≠ body2.length then false
  else isBodySameGo fuel body1 body2

/-- If some zipped pair exhausts the recursion bound, the pair loop answers
false. -/
theorem isBodySameGo_downgrades (fuel : Nat) (b1 b2 : List Node)
    (a b : Node) (hmem : (a, b) ∈ b1.zip b2)
    (herr : is_stmt_equal_f fuel a b = .error ()) :
    isBodySameGo fuel b1 b2 = false := by
  induction b1 generalizing b2 with
  | nil => simp [List.zip] at hmem
  | cons x xs ih =>
      cases b2 with
      | nil => simp [List.zip] at hmem
      | cons y ys =>
          rw [List.zip_cons_cons, List.mem_cons] at hmem
          rcases hmem with heq | hmem
          · obtain ⟨hx, hy⟩ := Prod.mk.injEq _ _ _ _ ▸ heq
            subst hx
            subst hy
            simp [isBodySameGo, bodyPairEqual, herr]
          · cases hbp : bodyPairEqual fuel x y
            · simp [isBodySameGo, hbp]
            · simp only [isBodySameGo, hbp, if_true]
              exact ih ys hmem

/-- C9: the deep comparison never lets recursion exhaustion escape —
`is_body_same` is a total boolean function, and whenever the recursive
comparison of some zipped statement pair exhausts the recursion bound, the
whole comparison answers false instead of propagating the failure. -/
theorem is_body_same_downgrades (fuel : Nat) (b1 b2 : List Node)
    (a b : Node) (hmem : (a, b) ∈ b1.zip b2)
    (herr : is_stmt_equal_f fuel a b = .error ()) :
    is_body_same_f fuel b1 b2 = false := by
  unfold is_body_same_f
  split
  · rfl
  · exact isBodySameGo_downgrades fuel b1 b2 a b hmem herr

/-- C9, witness: at fuel zero the comparison of any pair exhausts at once,
and `is_body_same` answers false. -/
theorem is_body_same_downgrades_witness :
    is_body_same_f 0 [Node.pass_ ⟨1, 0⟩] [Node.pass_ ⟨1, 0⟩] = false :=
  is_body_same_downgrades 0 _ _ (Node.pass_ ⟨1, 0⟩) (Node.pass_ ⟨1, 0⟩)
    (by simp [List.zip]) (by rw [is_stmt_equal_f, isStmtEqualSub])

/-! The metadata pass (`add_meta` in `__init__.py`). The source mutates
attributes on node objects; nodes are identified here by their path of
child indices, and the attribute stores become finite maps from paths.
An entry of `none` means the attribute was never set; `some v` means it
was set to `v` (where `v = none` is Python's `None`). -/

/-- The attribute store written by the metadata pass. -/
structure Meta where
  par : List Nat → Option (Option (List Nat))
  prv : List Nat → Option (Option (List Nat))
  nxt : List Nat → Option (Option (List Nat))

/-- The store before any pass has run: no attribute set anywhere. -/
def emptyMeta : Meta :=
  ⟨fun _ => none, fun _ => none, fun _ => none⟩

/-- Assignment `node.parent = v`. -/
def setPar (m : Meta) (q : List Nat) (v : Option (List Nat)) : Meta :=
  { m with par := fun r => if r = q then some v else m.par r }

/-- Assignment `node.previous_sibling = v`. -/
def setPrv (m : Meta) (q : List Nat) (v : Option (List Nat)) : Meta :=
  { m with prv := fun r => if r = q then some v else m.prv r }

/-- Assignment `node.next_sibling = v`. -/
def setNxt (m : Meta) (q : List Nat) (v : Option (List Nat)) : Meta :=
  { m with nxt := fun r => if r = q then some v else m.nxt r }

/-- The inner loop `for child in ast.iter_child_nodes(node): child.parent =
node`, over child indices `0 … n-1` of the node at `cp`. -/
def setParChildren (m : Meta) (cp : List Nat) : Nat → Meta
  | 0 => m
  | k + 1 => setPar (setParChildren m cp k) (cp ++ [k]) (some cp)

/-- Every list has positive size. -/
theorem list_sizeOf_pos (l : List Node) : 0 < sizeOf l := by
  cases l <;> simp

/-- Positions have positive size. -/
theorem pos_sizeOf_pos (p : Pos) : 1 ≤ sizeOf p := by
  cases p
  simp
  omega

/-- Size of an appended list. -/
theorem sizeOf_node_append (l1 l2 : List Node) :
    sizeOf (l1 ++ l2) + 1 = sizeOf l1 + sizeOf l2 := by
  induction l1 with
  | nil =>
      simp
      omega
  | cons a l ih =>
      simp [List.cons_append]
      omega

/-- A node's child list is no larger than the node. -/
theorem children_sizeOf_le (c : Node) : sizeOf (children c) ≤ sizeOf c := by
  cases c with
  | module b =>
      simp [children]
      try omega
  | nameE p i =>
      simp [children]
      try omega
  | constE p v =>
      simp [children]
      try omega
  | attrE p v a =>
      have hp := pos_sizeOf_pos p
      simp [children]
      try omega
  | exprStmt p v =>
      have hp := pos_sizeOf_pos p
      simp [children]
      try omega
  | ret p v =>
      cases v <;> (simp [children]; try omega)
  | assign p t v =>
      have h := sizeOf_node_append t [v]
      simp at h
      simp [children]
      try omega
  | augAssign p t o v =>
      have hp := pos_sizeOf_pos p
      have ho : 1 ≤ sizeOf o := by cases o <;> simp
      simp [children]
      try omega
  | if_ p t b o =>
      have h := sizeOf_node_append b o
      simp [children]
      try omega
  | for_ p t it b o =>
      have h := sizeOf_node_append b o
      simp [children]
      try omega
  | try_ p b h o f =>
      have h1 := sizeOf_node_append o f
      have h2 := sizeOf_node_append h (o ++ f)
      have h3 := sizeOf_node_append b (h ++ (o ++ f))
      simp [children, List.append_assoc]
      try omega
  | exceptHandler p et b =>
      cases et with
      | none =>
          simp [children]
          try omega
      | some x =>
          simp [children, List.cons_append]
          try omega
  | classDef p n ba d b =>
      have h2 := sizeOf_node_append b d
      have h3 := sizeOf_node_append ba (b ++ d)
      simp [children, List.append_assoc]
      try omega
  | funcDef p n b =>
      simp [children]
      try omega
  | asyncFuncDef p n b =>
      simp [children]
      try omega
  | continue_ p =>
      simp [children]
      try omega
  | pass_ p =>
      simp [children]
      try omega
  | raise_ p =>
      simp [children]
      try omega

/-- The attribute writes of one iteration of the `add_meta` loop body, for
the child at path `cp` with `n` children, in the source's statement order
(innermost first): set `parent` to `None` at level 0, set
`previous_sibling`, clear `next_sibling`, link the previous sibling
forward, and set the children's `parent`. -/
def iterWrites (m : Meta) (cp : List Nat) (lv : Nat)
    (prev : Option (List Nat)) (n : Nat) : Meta :=
  setParChildren
    (match prev with
     | some pp =>
         setNxt
           (setNxt
             (setPrv (if lv = 0 then setPar m cp none else m) cp prev)
             cp none)
           pp (some cp)
     | none =>
         setNxt
           (setPrv (if lv = 0 then setPar m cp none else m) cp prev)
           cp none)
    cp n

/-- `add_meta`, inner loop over one child list: `cs` are the children of
the node at path `p` not yet visited, `i` the index of the first of them,
`prev` the path of the previously visited sibling, `lv` the recursion
level. Reading the stores inside out gives the source's statement order:
set `parent` to `None` at level 0, set `previous_sibling`, clear
`next_sibling`, link the previous sibling forward, set the children's
`parent`, recurse into the child, then continue with the remaining
siblings. -/
def addMetaList : List Node → List Nat → Nat → Nat → Option (List Nat) →
    Meta → Meta
  | [], _, _, _, _, m => m
  | c :: cs, p, lv, i, prev, m =>
      addMetaList cs p lv (i + 1) (some (p ++ [i]))
        (addMetaList (children c) (p ++ [i]) (lv + 1) 0 none
          (iterWrites m (p ++ [i]) lv prev (children c).length))
termination_by cs _ _ _ _ _ => sizeOf cs
decreasing_by
  · have h1 := children_sizeOf_le c
    have h2 := list_sizeOf_pos cs
    simp only [List.cons.sizeOf_spec]
    omega
  · simp only [List.cons.sizeOf_spec]
    omega

/-- Unfolding of the metadata loop on the empty list. -/
theorem addMetaList_nil (p : List Nat) (lv i : Nat)
    (prev : Option (List Nat)) (m : Meta) :
    addMetaList [] p lv i prev m = m := by
  rw [addMetaList.eq_def]

/-- Unfolding of the metadata loop on a cons cell. -/
theorem addMetaList_cons (c : Node) (cs : List Node) (p : List Nat)
    (lv i : Nat) (prev : Option (List Nat)) (m : Meta) :
    addMetaList (c :: cs) p lv i prev m =
      addMetaList cs p lv (i + 1) (some (p ++ [i]))
        (addMetaList (children c) (p ++ [i]) (lv + 1) 0 none
          (iterWrites m (p ++ [i]) lv prev (children c).length)) := by
  rw [addMetaList.eq_def]

/-- `add_meta(root)` from `__init__.py`: walk the child lists depth first,
linking consecutive children of each node as siblings, setting the parent
of level-0 nodes to `None` and of deeper nodes to their parent node. -/
def add_meta (root : Node) (m : Meta) : Meta :=
  addMetaList (children root) [] 0 0 none m

/-! Path lemmas. -/

/-- Appending cancels on the left of a prefix. -/
theorem prefix_append_cancel {xs ys : List Nat} (p : List Nat) :
    (p ++ xs <+: p ++ ys) ↔ (xs <+: ys) := by
  induction p with
  | nil => simp
  | cons a p ih => simp [List.cons_append, List.cons_prefix_cons, ih]

/-- A singleton is a prefix of a cons exactly when the heads agree. -/
theorem singleton_prefix_cons {a b : Nat} {r : List Nat} :
    ([a] <+: b :: r) ↔ a = b := by
  simp [List.cons_prefix_cons]

/-- Equal-parent child paths are prefixes exactly for the same index. -/
theorem append_index_prefix_iff (p : List Nat) (a b : Nat) (r : List Nat) :
    ((p ++ [a]) <+: (p ++ [b] ++ r)) ↔ a = b := by
  rw [List.append_assoc, prefix_append_cancel]
  cases r with
  | nil => simp [List.cons_prefix_cons]
  | cons x xs => simp [List.cons_prefix_cons]

/-- A child path never prefixes its own parent path. -/
theorem not_append_index_prefix_self (p : List Nat) (a : Nat) :
    ¬ ((p ++ [a]) <+: p) := by
  intro h
  have := h.length_le
  simp at this

/-- Equal-parent child paths agree exactly on the index. -/
theorem append_index_inj {p : List Nat} {a b : Nat} :
    p ++ [a] = p ++ [b] ↔ a = b := by
  simp

/-! Effect of the attribute writes on the three stores. -/

/-- `setParChildren` never touches `previous_sibling`. -/
theorem setParChildren_prv (m : Meta) (cp : List Nat) (n : Nat)
    (q : List Nat) : (setParChildren m cp n).prv q = m.prv q := by
  induction n with
  | zero => rfl
  | succ k ih => simp [setParChildren, setPar, ih]

/-- `setParChildren` never touches `next_sibling`. -/
theorem setParChildren_nxt (m : Meta) (cp : List Nat) (n : Nat)
    (q : List Nat) : (setParChildren m cp n).nxt q = m.nxt q := by
  induction n with
  | zero => rfl
  | succ k ih => simp [setParChildren, setPar, ih]

/-- `setParChildren` leaves `parent` unchanged away from the child paths. -/
theorem setParChildren_par_ne (m : Meta) (cp : List Nat) (n : Nat)
    (q : List Nat) (h : ∀ k, k < n → q ≠ cp ++ [k]) :
    (setParChildren m cp n).par q = m.par q := by
  induction n with
  | zero => rfl
  | succ k ih =>
      have hk := h k (Nat.lt_succ_self k)
      simp only [setParChildren, setPar]
      rw [if_neg hk]
      exact ih (fun k' hk' => h k' (Nat.lt_succ_of_lt hk'))

/-- `setParChildren` writes the parent of every child path. -/
theorem setParChildren_par_eq (m : Meta) (cp : List Nat) (n k : Nat)
    (h : k < n) :
    (setParChildren m cp n).par (cp ++ [k]) = some (some cp) := by
  induction n with
  | zero => omega
  | succ n ih =>
      simp only [setParChildren, setPar]
      by_cases hk : k = n
      · subst hk
        rw [if_pos rfl]
      · rw [if_neg (by simp [append_index_inj, hk])]
        exact ih (by omega)

/-- One iteration records the previous sibling of the visited child. -/
theorem iterWrites_prv_cp (m : Meta) (cp : List Nat) (lv : Nat)
    (prev : Option (List Nat)) (n : Nat) :
    (iterWrites m cp lv prev n).prv cp = some prev := by
  unfold iterWrites
  rw [setParChildren_prv]
  cases prev <;> simp [setNxt, setPrv]

/-- One iteration leaves `previous_sibling` untouched elsewhere. -/
theorem iterWrites_prv_ne (m : Meta) (cp : List Nat) (lv : Nat)
    (prev : Option (List Nat)) (n : Nat) (q : List Nat) (h : q ≠ cp) :
    (iterWrites m cp lv prev n).prv q = m.prv q := by
  unfold iterWrites
  rw [setParChildren_prv]
  cases prev <;> by_cases hlv : lv = 0 <;>
    simp [hlv, setNxt, setPrv, setPar, h]

/-- One iteration clears the visited child's `next_sibling` (the forward
link to it from the previous sibling writes a different path). -/
theorem iterWrites_nxt_cp (m : Meta) (cp : List Nat) (lv : Nat)
    (prev : Option (List Nat)) (n : Nat)
    (h : ∀ pp, prev = some pp → pp ≠ cp) :
    (iterWrites m cp lv prev n).nxt cp = some none := by
  unfold iterWrites
  rw [setParChildren_nxt]
  cases prev with
  | none => simp [setNxt, setPrv]
  | some pp =>
      have hpp := h pp rfl
      simp [setNxt, setPrv]
      exact fun hq => hpp hq.symm

/-- One iteration links the previous sibling forward to the visited
child. -/
theorem iterWrites_nxt_pp (m : Meta) (cp : List Nat) (lv : Nat)
    (pp : List Nat) (n : Nat) (_h : pp ≠ cp) :
    (iterWrites m cp lv (some pp) n).nxt pp = some (some cp) := by
  unfold iterWrites
  rw [setParChildren_nxt]
  simp [setNxt, setPrv]

/-- One iteration leaves `next_sibling` untouched away from the visited
child and the previous sibling. -/
theorem iterWrites_nxt_ne (m : Meta) (cp : List Nat) (lv : Nat)
    (prev : Option (List Nat)) (n : Nat) (q : List Nat) (h : q ≠ cp)
    (h2 : ∀ pp, prev = some pp → q ≠ pp) :
    (iterWrites m cp lv prev n).nxt q = m.nxt q := by
  unfold iterWrites
  rw [setParChildren_nxt]
  cases prev with
  | none =>
      by_cases hlv : lv = 0 <;> simp [hlv, setNxt, setPrv, setPar, h]
  | some pp =>
      have hpp := h2 pp rfl
      by_cases hlv : lv = 0 <;> simp [hlv, setNxt, setPrv, setPar, h, hpp]

/-- One iteration leaves `parent` untouched away from the visited child
and its children. -/
theorem iterWrites_par_ne (m : Meta) (cp : List Nat) (lv : Nat)
    (prev : Option (List Nat)) (n : Nat) (q : List Nat) (h : q ≠ cp)
    (h2 : ∀ k, k < n → q ≠ cp ++ [k]) :
    (iterWrites m cp lv prev n).par q = m.par q := by
  unfold iterWrites
  rw [setParChildren_par_ne _ _ _ _ h2]
  cases prev <;> by_cases hlv : lv = 0 <;>
    simp [hlv, setNxt, setPrv, setPar, h]

/-- One iteration writes the `parent` of every child of the visited
child. -/
theorem iterWrites_par_child (m : Meta) (cp : List Nat) (lv : Nat)
    (prev : Option (List Nat)) (n k : Nat) (h : k < n) :
    (iterWrites m cp lv prev n).par (cp ++ [k]) = some (some cp) := by
  unfold iterWrites
  exact setParChildren_par_eq _ _ _ _ h

/-- Frame property of the metadata loop: it never writes `parent` or
`previous_sibling` outside the subtrees of the children it visits, and
never writes `next_sibling` outside those subtrees and the passed-in
previous sibling. -/
theorem addMetaList_frame (cs : List Node) (p : List Nat) (lv i : Nat)
    (prev : Option (List Nat)) (m : Meta) :
    ∀ q, (∀ j, j < cs.length → ¬ ((p ++ [i + j]) <+: q)) →
      (addMetaList cs p lv i prev m).par q = m.par q ∧
      (addMetaList cs p lv i prev m).prv q = m.prv q ∧
      ((∀ pp, prev = some pp → q ≠ pp) →
        (addMetaList cs p lv i prev m).nxt q = m.nxt q) := by
  induction cs, p, lv, i, prev, m using addMetaList.induct with
  | case1 p lv i prev m =>
      intro q hq
      simp [addMetaList_nil]
  | case2 c cs p lv i prev m ih_inner ih_tail =>
      intro q hq
      have hq0 : ¬ ((p ++ [i]) <+: q) := by
        have := hq 0 (by simp)
        simpa using this
      have hqne_cp : q ≠ p ++ [i] := fun h => hq0 (h ▸ List.prefix_rfl)
      have hqne_ck : ∀ k, q ≠ (p ++ [i]) ++ [k] := by
        intro k h
        apply hq0
        rw [h]
        exact List.prefix_append _ _
      have hInner : ∀ j, j < (children c).length →
          ¬ (((p ++ [i]) ++ [0 + j]) <+: q) := by
        intro j hj hpre
        exact hq0 ((List.prefix_append (p ++ [i]) [0 + j]).trans hpre)
      have hTail : ∀ j, j < cs.length → ¬ ((p ++ [(i + 1) + j]) <+: q) := by
        intro j hj
        have h := hq (j + 1) (by simpa using Nat.succ_lt_succ hj)
        rw [show i + (j + 1) = i + 1 + j by omega] at h
        exact h
      obtain ⟨tpar, tprv, tnxt⟩ := ih_tail q hTail
      obtain ⟨ipar, iprv, inxt⟩ := ih_inner q hInner
      refine ⟨?_, ?_, ?_⟩
      · rw [addMetaList_cons]
        refine tpar.trans (ipar.trans ?_)
        exact iterWrites_par_ne _ _ _ _ _ _ hqne_cp (fun k _ => hqne_ck k)
      · rw [addMetaList_cons]
        refine tprv.trans (iprv.trans ?_)
        exact iterWrites_prv_ne _ _ _ _ _ _ hqne_cp
      · intro hpp
        rw [addMetaList_cons]
        refine (tnxt (fun pp' h => by
              injection h with h
              exact h ▸ hqne_cp)).trans
          ((inxt (fun pp' h => Option.noConfusion h)).trans ?_)
        exact iterWrites_nxt_ne _ _ _ _ _ _ hqne_cp hpp

/-! Glue lemmas about `nodeAt`. -/

/-- A singleton path reads the indexed child. -/
theorem nodeAt_singleton (c : Node) (k : Nat) :
    nodeAt c [k] = (children c)[k]? := by
  unfold nodeAt
  cases h : (children c)[k]? with
  | none => simp
  | some c' => simp [nodeAt]

/-- A cons path first steps to the indexed child. -/
theorem nodeAt_cons_eq (c : Node) (j : Nat) (r : List Nat) (cj : Node)
    (h : (children c)[j]? = some cj) :
    nodeAt c (j :: r) = nodeAt cj r := by
  unfold nodeAt
  rw [h]
  cases r <;> rfl

/-- An indexed read succeeds only within bounds. -/
theorem getElem?_some_lt {l : List Node} {k : Nat} {c : Node}
    (h : l[k]? = some c) : k < l.length := by
  by_contra hk
  rw [List.getElem?_eq_none (by omega)] at h
  exact Option.noConfusion h

/-- A longer list never prefixes a shorter one. -/
theorem not_prefix_of_longer {l1 l2 : List Nat}
    (h : l2.length < l1.length) : ¬ (l1 <+: l2) := by
  intro hp
  have := hp.length_le
  omega

/-- Lists of different lengths are different. -/
theorem ne_of_length_ne {l1 l2 : List Nat} (h : l1.length ≠ l2.length) :
    l1 ≠ l2 := by
  intro he
  exact h (he ▸ rfl)

/-- Expected sibling links inside the subtree rooted at `c`, whose own path
is `base`: the `k`-th child of the node at relative path `r` has the
`(k-1)`-st child as previous sibling and the `(k+1)`-st as next sibling,
bounded by the parent's child count. -/
def SubSpec (M : Meta) (base : List Nat) (c : Node) : Prop :=
  ∀ r k cc, nodeAt c (r ++ [k]) = some cc →
    M.prv (base ++ (r ++ [k]))
        = some (if k = 0 then none else some (base ++ (r ++ [k - 1]))) ∧
      ∀ pn, nodeAt c r = some pn →
        M.nxt (base ++ (r ++ [k]))
          = some (if k + 1 < (children pn).length
              then some (base ++ (r ++ [k + 1])) else none)

/-- Values written by the metadata loop: it completes the forward link of
the sibling that preceded the processed list, and for every processed
child and every node inside that child's subtree the final sibling links
follow child-list order. -/
theorem addMetaList_spec (cs : List Node) (p : List Nat) (lv i : Nat)
    (prev : Option (List Nat)) (m : Meta) :
    (prev = none ∨ ∃ i0, i = i0 + 1 ∧ prev = some (p ++ [i0])) →
    ((∀ pp, prev = some pp → cs ≠ [] →
        (addMetaList cs p lv i prev m).nxt pp = some (some (p ++ [i]))) ∧
      (∀ pp, prev = some pp → cs = [] →
        (addMetaList cs p lv i prev m).nxt pp = m.nxt pp) ∧
      ∀ j, ∀ hj : j < cs.length,
        (addMetaList cs p lv i prev m).prv (p ++ [i + j])
            = some (if j = 0 then prev else some (p ++ [i + j - 1])) ∧
          (addMetaList cs p lv i prev m).nxt (p ++ [i + j])
            = some (if j + 1 < cs.length then some (p ++ [i + j + 1])
                else none) ∧
          SubSpec (addMetaList cs p lv i prev m) (p ++ [i + j])
            (cs.get ⟨j, hj⟩)) := by
  induction cs, p, lv, i, prev, m using addMetaList.induct with
  | case1 p lv i prev m =>
      intro _
      rw [addMetaList_nil]
      refine ⟨fun pp _ hne => absurd rfl hne, fun pp _ _ => rfl, ?_⟩
      intro j hj
      simp at hj
  | case2 c cs p lv i prev m ih_inner ih_tail =>
      intro HP
      rw [addMetaList_cons]
      obtain ⟨ci1, ci2, cij⟩ := ih_inner (Or.inl rfl)
      obtain ⟨ct1, ct2, ctj⟩ := ih_tail (Or.inr ⟨i, rfl, rfl⟩)
      have hprev_ne_cp : ∀ pp, prev = some pp → pp ≠ p ++ [i] := by
        rcases HP with h | ⟨i0, hi, hprev⟩
        · intro pp hpp
          rw [h] at hpp
          exact Option.noConfusion hpp
        · intro pp hpp
          rw [hprev] at hpp
          injection hpp with hpp
          subst hpp
          subst hi
          intro heq
          have := append_index_inj.mp heq
          omega
      have hne_idx : ∀ (j' : Nat) (rest : List Nat),
          ¬ ((p ++ [(i + 1) + j']) <+: ((p ++ [i]) ++ rest)) := by
        intro j' rest hp
        have := (append_index_prefix_iff p ((i + 1) + j') i rest).mp hp
        omega
      have tailFramePrv : ∀ q, ((p ++ [i]) <+: q) →
          (addMetaList cs p lv (i + 1) (some (p ++ [i]))
              (addMetaList (children c) (p ++ [i]) (lv + 1) 0 none
                (iterWrites m (p ++ [i]) lv prev (children c).length))).prv q
            = (addMetaList (children c) (p ++ [i]) (lv + 1) 0 none
                (iterWrites m (p ++ [i]) lv prev
                  (children c).length)).prv q := by
        intro q hq
        obtain ⟨rest, rfl⟩ := hq
        exact (addMetaList_frame _ _ _ _ _ _ _
          (fun j' _ => hne_idx j' rest)).2.1
      have tailFrameNxt : ∀ q, ((p ++ [i]) <+: q) → q ≠ p ++ [i] →
          (addMetaList cs p lv (i + 1) (some (p ++ [i]))
              (addMetaList (children c) (p ++ [i]) (lv + 1) 0 none
                (iterWrites m (p ++ [i]) lv prev (children c).length))).nxt q
            = (addMetaList (children c) (p ++ [i]) (lv + 1) 0 none
                (iterWrites m (p ++ [i]) lv prev
                  (children c).length)).nxt q := by
        intro q hq hne
        obtain ⟨rest, rfl⟩ := hq
        exact (addMetaList_frame _ _ _ _ _ _ _
          (fun j' _ => hne_idx j' rest)).2.2 (fun pp' h => by
            injection h with h
            subst h
            exact hne)
      have innerFrame : ∀ q, (∀ j3 : Nat, ¬ (((p ++ [i]) ++ [j3]) <+: q)) →
          (addMetaList (children c) (p ++ [i]) (lv + 1) 0 none
              (iterWrites m (p ++ [i]) lv prev (children c).length)).prv q
            = (iterWrites m (p ++ [i]) lv prev (children c).length).prv q ∧
          (addMetaList (children c) (p ++ [i]) (lv + 1) 0 none
              (iterWrites m (p ++ [i]) lv prev (children c).length)).nxt q
            = (iterWrites m (p ++ [i]) lv prev (children c).length).nxt q := by
        intro q hq
        obtain ⟨-, a2, a3⟩ := addMetaList_frame (children c) (p ++ [i])
          (lv + 1) 0 none _ q (fun j3 _ => by simpa using hq j3)
        exact ⟨a2, a3 (fun pp h => Option.noConfusion h)⟩
      refine ⟨?_, ?_, ?_⟩
      · -- forward link of the preceding sibling
        intro pp hpp _
        rcases HP with h | ⟨i0, hi, hprev⟩
        · rw [h] at hpp
          exact Option.noConfusion hpp
        · subst hi
          rw [hprev] at hpp
          injection hpp with hpp
          subst hpp
          have h1 : (addMetaList cs p lv (i0 + 1 + 1) (some (p ++ [i0 + 1]))
              (addMetaList (children c) (p ++ [i0 + 1]) (lv + 1) 0 none
                (iterWrites m (p ++ [i0 + 1]) lv prev
                  (children c).length))).nxt (p ++ [i0])
              = (addMetaList (children c) (p ++ [i0 + 1]) (lv + 1) 0 none
                  (iterWrites m (p ++ [i0 + 1]) lv prev
                    (children c).length)).nxt (p ++ [i0]) := by
            refine (addMetaList_frame _ _ _ _ _ _ _ ?_).2.2 (fun pp' h => by
              injection h with h
              subst h
              intro heq
              have := append_index_inj.mp heq
              omega)
            intro j' _ hp
            have hlen : (p ++ [i0 + 1 + 1 + j']).length
                = (p ++ [i0]).length := by simp
            have := append_index_inj.mp (hp.eq_of_length hlen)
            omega
          have h2 := (innerFrame (p ++ [i0]) (fun j3 =>
            not_prefix_of_longer (by simp))).2
          rw [h1, h2, hprev]
          exact iterWrites_nxt_pp m _ lv _ _ (fun heq => by
            have := append_index_inj.mp heq
            omega)
      · -- a cons list is never empty
        intro pp hpp hnil
        exact absurd hnil (List.cons_ne_nil c cs)
      · -- per-element values
        intro j hj
        cases j with
        | zero =>
            simp only [Nat.add_zero]
            refine ⟨?_, ?_, ?_⟩
            · have h1 := tailFramePrv (p ++ [i]) List.prefix_rfl
              have h2 := (innerFrame (p ++ [i]) (fun j3 =>
                not_prefix_of_longer (by simp))).1
              rw [h1, h2, iterWrites_prv_cp m _ lv prev _]
              simp
            · by_cases hcs : cs = []
              · subst hcs
                rw [addMetaList_nil]
                rw [(innerFrame (p ++ [i]) (fun j3 =>
                    not_prefix_of_longer (by simp))).2,
                  iterWrites_nxt_cp m _ lv prev _ hprev_ne_cp]
                simp
              · have hpos := List.length_pos.mpr hcs
                rw [ct1 (p ++ [i]) rfl hcs]
                simp [hpos]
            · show SubSpec _ (p ++ [i]) c
              intro r k cc hnode
              cases r with
              | nil =>
                  simp only [List.nil_append] at hnode ⊢
                  have hk : (children c)[k]? = some cc := by
                    rw [← nodeAt_singleton]
                    exact hnode
                  have hklen := getElem?_some_lt hk
                  refine ⟨?_, ?_⟩
                  · have h1 := tailFramePrv ((p ++ [i]) ++ [k])
                      (List.prefix_append _ _)
                    have h2 := (cij k hklen).1
                    simp only [Nat.zero_add] at h2
                    exact h1.trans h2
                  · intro pn hpn
                    have hpn' : c = pn := by simpa [nodeAt] using hpn
                    subst hpn'
                    have h1 := tailFrameNxt ((p ++ [i]) ++ [k])
                      (List.prefix_append _ _) (by
                        apply ne_of_length_ne
                        simp)
                    have h2 := (cij k hklen).2.1
                    simp only [Nat.zero_add] at h2
                    exact h1.trans h2
              | cons j' r' =>
                  rw [List.cons_append] at hnode
                  cases hcj : (children c)[j']? with
                  | none => simp [nodeAt, hcj] at hnode
                  | some cj =>
                      rw [nodeAt_cons_eq c j' _ cj hcj] at hnode
                      have hj'len := getElem?_some_lt hcj
                      have hget : (children c).get ⟨j', hj'len⟩ = cj := by
                        have h2 := List.getElem?_eq_getElem hj'len
                        rw [hcj] at h2
                        injection h2 with h2
                        rw [List.get_eq_getElem]
                        exact h2.symm
                      have hss := (cij j' hj'len).2.2
                      simp only [Nat.zero_add] at hss
                      rw [hget] at hss
                      obtain ⟨hprv6, hnxt6⟩ := hss r' k cc hnode
                      refine ⟨?_, ?_⟩
                      · have h1 := tailFramePrv
                          (((p ++ [i]) ++ [j']) ++ (r' ++ [k]))
                          ((List.prefix_append _ _).trans
                            (List.prefix_append _ _))
                        have h2 := h1.trans hprv6
                        simp only [List.append_assoc, List.singleton_append,
                          List.cons_append] at h2 ⊢
                        exact h2
                      · intro pn hpn
                        rw [nodeAt_cons_eq c j' r' cj hcj] at hpn
                        have h1 := tailFrameNxt
                          (((p ++ [i]) ++ [j']) ++ (r' ++ [k]))
                          ((List.prefix_append _ _).trans
                            (List.prefix_append _ _))
                          (by
                            apply ne_of_length_ne
                            simp)
                        have h2 := h1.trans (hnxt6 pn hpn)
                        simp only [List.append_assoc, List.singleton_append,
                          List.cons_append] at h2 ⊢
                        exact h2
        | succ j'' =>
            have hj'' : j'' < cs.length := by simpa using hj
            obtain ⟨hprv, hnxt, hss⟩ := ctj j'' hj''
            refine ⟨?_, ?_, ?_⟩
            · rw [show i + (j'' + 1) = (i + 1) + j'' from by omega]
              rw [hprv]
              by_cases h0 : j'' = 0
              · subst h0
                simp
              · simp [h0]
            · rw [show i + (j'' + 1) = (i + 1) + j'' from by omega]
              rw [hnxt]
              simp only [List.length_cons]
              exact congrArg some (if_congr (by omega) rfl rfl)
            · rw [show i + (j'' + 1) = (i + 1) + j'' from by omega]
              have hget : (c :: cs).get ⟨j'' + 1, hj⟩
                  = cs.get ⟨j'', hj''⟩ := rfl
              rw [hget]
              exact hss

/-- Lifting the loop lemma to the whole pass: `add_meta` establishes the
sibling-link formula for every node of the tree. -/
theorem add_meta_subSpec (root : Node) (m : Meta) :
    SubSpec (add_meta root m) [] root := by
  intro r k cc hnode
  obtain ⟨-, -, hj⟩ :=
    addMetaList_spec (children root) [] 0 0 none m (Or.inl rfl)
  cases r with
  | nil =>
      rw [List.nil_append, nodeAt_singleton] at hnode
      have hk := getElem?_some_lt hnode
      obtain ⟨hprv, hnxt, -⟩ := hj k hk
      refine ⟨?_, ?_⟩
      · simpa [add_meta] using hprv
      · intro pn hpn
        have hpn' : root = pn := by simpa [nodeAt] using hpn
        subst hpn'
        simpa [add_meta] using hnxt
  | cons j r' =>
      rw [List.cons_append] at hnode
      cases hcj : (children root)[j]? with
      | none => simp [nodeAt, hcj] at hnode
      | some cj =>
          rw [nodeAt_cons_eq root j _ cj hcj] at hnode
          have hjlen := getElem?_some_lt hcj
          have hget : (children root).get ⟨j, hjlen⟩ = cj := by
            have h2 := List.getElem?_eq_getElem hjlen
            rw [hcj] at h2
            injection h2 with h2
            rw [List.get_eq_getElem]
            exact h2.symm
          have hss := (hj j hjlen).2.2
          rw [hget] at hss
          obtain ⟨hprv6, hnxt6⟩ := hss r' k cc hnode
          refine ⟨?_, ?_⟩
          · have h2 := hprv6
            simp only [add_meta, List.nil_append, Nat.zero_add,
              List.append_assoc, List.singleton_append,
              List.cons_append] at h2 ⊢
            exact h2
          · intro pn hpn
            rw [nodeAt_cons_eq root j r' cj hcj] at hpn
            have h2 := hnxt6 pn hpn
            simp only [add_meta, List.nil_append, Nat.zero_add,
              List.append_assoc, List.singleton_append,
              List.cons_append] at h2 ⊢
            exact h2

/-- C1, counterexample: `add_meta` does link a statement to an expression
child. On `if x: pass`, the walk visits the test expression `x` and the
body statement `pass` as consecutive children of the `if` node, so the
`pass` statement's `previous_sibling` becomes the test expression and the
test expression's `next_sibling` becomes the `pass` statement. -/
theorem add_meta_expr_stmt_sibling_counterexample :
    nodeAt (Node.module [Node.if_ ⟨1, 0⟩ (Node.nameE ⟨1, 3⟩ ['x'])
        [Node.pass_ ⟨2, 4⟩] []]) [0, 0]
      = some (Node.nameE ⟨1, 3⟩ ['x']) ∧
    nodeAt (Node.module [Node.if_ ⟨1, 0⟩ (Node.nameE ⟨1, 3⟩ ['x'])
        [Node.pass_ ⟨2, 4⟩] []]) [0, 1]
      = some (Node.pass_ ⟨2, 4⟩) ∧
    (add_meta (Node.module [Node.if_ ⟨1, 0⟩ (Node.nameE ⟨1, 3⟩ ['x'])
        [Node.pass_ ⟨2, 4⟩] []]) emptyMeta).prv [0, 1]
      = some (some [0, 0]) ∧
    (add_meta (Node.module [Node.if_ ⟨1, 0⟩ (Node.nameE ⟨1, 3⟩ ['x'])
        [Node.pass_ ⟨2, 4⟩] []]) emptyMeta).nxt [0, 0]
      = some (some [0, 1]) := by
  refine ⟨rfl, rfl, ?_, ?_⟩ <;>
    simp [add_meta, addMetaList_cons, addMetaList_nil, children, iterWrites,
      setParChildren, setPrv, setNxt, setPar, emptyMeta]

/-- C1 (adjusted): after `add_meta`, every node's sibling links follow the
order of its parent's `iter_child_nodes` sequence: the `k`-th child of a
node points back at the `(k-1)`-st child and forward at the `(k+1)`-st,
with `None` at both ends. That sequence interleaves expression and
statement children, so sibling links are established between statements
and expression children of the same parent. -/
theorem add_meta_amended (root : Node) (m : Meta) (r : List Nat) (k : Nat)
    (cc : Node) (hnode : nodeAt root (r ++ [k]) = some cc) :
    (add_meta root m).prv (r ++ [k])
        = some (if k = 0 then none else some (r ++ [k - 1])) ∧
      ∀ pn, nodeAt root r = some pn →
        (add_meta root m).nxt (r ++ [k])
          = some (if k + 1 < (children pn).length
              then some (r ++ [k + 1]) else none) := by
  have h := add_meta_subSpec root m r k cc hnode
  simpa using h

/-- Witness for C1: the links of the second top-level statement of a
two-statement module, read off the adjusted theorem at that input. -/
theorem add_meta_amended_witness :
    (add_meta (Node.module [Node.pass_ ⟨1, 0⟩, Node.pass_ ⟨2, 0⟩])
        emptyMeta).prv [1] = some (some [0]) ∧
    (add_meta (Node.module [Node.pass_ ⟨1, 0⟩, Node.pass_ ⟨2, 0⟩])
        emptyMeta).nxt [1] = some none := by
  have h := add_meta_amended
    (Node.module [Node.pass_ ⟨1, 0⟩, Node.pass_ ⟨2, 0⟩]) emptyMeta
    [] 1 (Node.pass_ ⟨2, 0⟩) rfl
  refine ⟨?_, ?_⟩
  · simpa using h.1
  · have h2 := h.2 (Node.module [Node.pass_ ⟨1, 0⟩, Node.pass_ ⟨2, 0⟩]) rfl
    simpa [children] using h2

/-! Claim C10: the visitor and `Plugin.run`. The embedded visitor walks the
tree in `ast.NodeVisitor` order — each node's rules first, then its
children left to right — dispatching, per node kind and in the source's
statement order, the rule functions of `__init__.py` modelled above. -/

/-- Message template `SIM110`. -/
def SIM110msg (check target iterable : List Char) : List Char :=
  "SIM110 Use 'return any(".toList ++ check ++ " for ".toList ++ target
    ++ " in ".toList ++ iterable ++ ")'".toList

/-- Message template `SIM111`. -/
def SIM111msg (check target iterable : List Char) : List Char :=
  "SIM111 Use 'return all(".toList ++ check ++ " for ".toList ++ target
    ++ " in ".toList ++ iterable ++ ")'".toList

/-- Message template `SIM113` of `__init__.py`. -/
def SIM113initmsg (v : List Char) : List Char :=
  "SIM113 Use enumerate instead of '".toList ++ v ++ "'".toList

/-- `_get_sim108` from `__init__.py`: `get_sim108` without the
enclosing-conditional suppression. -/
def _get_sim108 (pos : Pos) (test : Node) (body orelse : List Node) :
    List Diag :=
  match body, orelse with
  | [.assign _ [.nameE pt tid] bval], [.assign _ [.nameE _po oid] oval] =>
      if tid = oid then
        let msg := SIM108msg (to_source (some (Node.nameE pt tid)))
          (to_source (some bval)) (to_source (some test))
          (to_source (some oval))
        if 79 < msg.length then [] else [(pos.line, pos.col, msg)]
      else []
  | _, _ => []

/-- `_get_sim113` from `__init__.py`: unless the loop body contains a
continue, report every augmented assignment in the body that adds the
constant `1` to a plain name. -/
def _get_sim113 (body : List Node) : List Diag :=
  if body_contains_continue body then []
  else
    body.filterMap (fun e =>
      match e with
      | .augAssign _ (.nameE p id) op v =>
          if is_constant_increase op v then
            some (p.line, p.col,
              SIM113initmsg (to_source (some (Node.nameE p id))))
          else none
      | _ => none)

/-- Tests whether an optional node is an `ast.Raise` statement. -/
def isRaiseOpt : Option Node → Bool
  | some (.raise_ _) => true
  | _ => false

/-- `_get_sim110_sim111` from `__init__.py`: the body is a single if whose
body is a single return of a constant; unless the loop's `next_sibling` is
a raise statement, fire SIM110 when the constant is `True` and SIM111 —
with the textual negation of the rendered test — when it is `False`. -/
def _get_sim110_sim111 (pos : Pos) (target it : Node)
    (body _orelse : List Node) (nextSib : Option Node) : List Diag :=
  match body with
  | [.if_ _ test [.ret _ (some (.constE _ v))] _] =>
      if isRaiseOpt nextSib then []
      else
        let check := to_source (some test)
        let targetS := to_source (some target)
        let iterable := to_source (some it)
        match v with
        | .boolV true =>
            [(pos.line, pos.col, SIM110msg check targetS iterable)]
        | .boolV false =>
            let check2 :=
              if (" and ".toList) <:+: check ∨ (" or ".toList) <:+: check
                  then
                "not (".toList ++ check ++ ")".toList
              else if check.take 4 = "not ".toList then check.drop 4
              else "not ".toList ++ check
            [(pos.line, pos.col, SIM111msg check2 targetS iterable)]
        | _ => []
  | _ => []

/-- Reads a node's `next_sibling` attribute as a node: the store holds the
sibling's path, resolved against the tree; an unset or `None` attribute
yields no node. -/
def resolveNxt (root : Node) (M : Meta) (q : List Nat) : Option Node :=
  match M.nxt q with
  | some (some r) => nodeAt root r
  | _ => none

/-- The rules the visitor dispatches for one node at path `q`, per node
kind in the source's `visit_*` statement order, restricted to the rules
modelled here. -/
def dispatchRules (root : Node) (M : Meta) (c : Node) (q : List Nat) :
    List Diag :=
  match c with
  | .if_ pos test body orelse =>
      _get_sim103 pos test body orelse ++ _get_sim108 pos test body orelse
  | .for_ pos target it body orelse =>
      _get_sim110_sim111 pos target it body orelse (resolveNxt root M q)
        ++ _get_sim113 body
  | .try_ _ body handlers orelse finalbody =>
      _get_sim107 body handlers orelse finalbody
  | .classDef pos cname bases decs body =>
      _get_sim119 pos cname bases decs body
  | _ => []

/-- The visitor's walk over a child list: for the child at index `i` of the
node at path `p`, run its rules, recurse into its children, then continue
with the remaining siblings. -/
def visitList (root : Node) (M : Meta) : List Node → List Nat → Nat →
    List Diag
  | [], _, _ => []
  | c :: cs, p, i =>
      (dispatchRules root M c (p ++ [i]) ++
          visitList root M (children c) (p ++ [i]) 0) ++
        visitList root M cs p (i + 1)
termination_by cs _ _ => sizeOf cs
decreasing_by
  · have h1 := children_sizeOf_le c
    have h2 := list_sizeOf_pos cs
    simp only [List.cons.sizeOf_spec]
    omega
  · simp only [List.cons.sizeOf_spec]
    omega

/-- Unfolding of the visitor walk on the empty list. -/
theorem visitList_nil (root : Node) (M : Meta) (p : List Nat) (i : Nat) :
    visitList root M [] p i = [] := by
  rw [visitList.eq_def]

/-- Unfolding of the visitor walk on a cons cell. -/
theorem visitList_cons (root : Node) (M : Meta) (c : Node) (cs : List Node)
    (p : List Nat) (i : Nat) :
    visitList root M (c :: cs) p i =
      (dispatchRules root M c (p ++ [i]) ++
          visitList root M (children c) (p ++ [i]) 0) ++
        visitList root M cs p (i + 1) := by
  rw [visitList.eq_def]

/-- `Visitor().visit(tree)`: the root's own rules, then the walk over its
children. -/
def Visitor_visit (root : Node) (M : Meta) : List Diag :=
  dispatchRules root M root [] ++ visitList root M (children root) [] 0

/-- `Plugin.run`: run `add_meta` on the tree, then collect the visitor's
diagnostics, which read the attribute store the pass produced. -/
def Plugin_run (tree : Node) (m : Meta) : List Diag :=
  Visitor_visit tree (add_meta tree m)

/-- Reading a concatenated path chains the two reads. -/
theorem nodeAt_append (t : Node) (a b : List Nat) :
    nodeAt t (a ++ b) = (nodeAt t a).bind (fun y => nodeAt y b) := by
  induction a generalizing t with
  | nil => simp [nodeAt]
  | cons x xs ih =>
      rw [List.cons_append]
      cases hcx : (children t)[x]? with
      | none => simp [nodeAt, hcx]
      | some cx => simp [nodeAt, hcx, ih]

/-- The dispatch depends on the store only through the node's
`next_sibling` entry. -/
theorem dispatchRules_agree (root : Node) (M₁ M₂ : Meta) (c : Node)
    (q : List Nat) (h : M₁.nxt q = M₂.nxt q) :
    dispatchRules root M₁ c q = dispatchRules root M₂ c q := by
  cases c <;> simp [dispatchRules, resolveNxt, h]

/-- After `add_meta`, the `next_sibling` entry of every node of the tree is
independent of the incoming store. -/
theorem add_meta_nxt_agree (tree : Node) (m₁ m₂ : Meta) :
    ∀ q cq, nodeAt tree q = some cq → q ≠ [] →
      (add_meta tree m₁).nxt q = (add_meta tree m₂).nxt q := by
  intro q cq hq hne
  obtain ⟨r, k, rfl⟩ : ∃ r k, q = r ++ [k] := by
    rcases List.eq_nil_or_concat q with h | ⟨r, k, h⟩
    · exact absurd h hne
    · exact ⟨r, k, by simpa [List.concat_eq_append] using h⟩
  have hq' := hq
  rw [nodeAt_append] at hq'
  obtain ⟨pn, hpn⟩ : ∃ pn, nodeAt tree r = some pn := by
    cases hr : nodeAt tree r with
    | none =>
        rw [hr] at hq'
        simp at hq'
    | some pn => exact ⟨pn, rfl⟩
  have h₁ := (add_meta_subSpec tree m₁ r k cq hq).2 pn hpn
  have h₂ := (add_meta_subSpec tree m₂ r k cq hq).2 pn hpn
  simp only [List.nil_append] at h₁ h₂
  rw [h₁, h₂]

/-- The visitor's output agrees for two stores that agree on the
`next_sibling` entry of every node of the tree, along any child list whose
elements sit at the claimed paths. -/
theorem visitList_agree (tree : Node) (M₁ M₂ : Meta)
    (hM : ∀ q cq, nodeAt tree q = some cq → q ≠ [] →
      M₁.nxt q = M₂.nxt q) :
    ∀ n, ∀ cs : List Node, sizeOf cs ≤ n → ∀ p i,
      (∀ j, ∀ hj : j < cs.length,
        nodeAt tree (p ++ [i + j]) = some (cs.get ⟨j, hj⟩)) →
      visitList tree M₁ cs p i = visitList tree M₂ cs p i := by
  intro n
  induction n with
  | zero =>
      intro cs hcs
      have := list_sizeOf_pos cs
      omega
  | succ n ih =>
      intro cs hcs p i hvalid
      cases cs with
      | nil => rw [visitList_nil, visitList_nil]
      | cons c cs =>
          rw [visitList_cons, visitList_cons]
          have hc0 : nodeAt tree (p ++ [i]) = some c := by
            simpa using hvalid 0 (by simp)
          simp only [List.cons.sizeOf_spec] at hcs
          have h1 := children_sizeOf_le c
          have h2 := list_sizeOf_pos cs
          have h_in : sizeOf (children c) ≤ n := by omega
          have h_tl : sizeOf cs ≤ n := by omega
          have hd := dispatchRules_agree tree M₁ M₂ c (p ++ [i])
            (hM (p ++ [i]) c hc0 (by simp))
          have hin := ih (children c) h_in (p ++ [i]) 0 (by
            intro j hj
            rw [nodeAt_append, hc0]
            simp [nodeAt_singleton, List.getElem?_eq_getElem hj])
          have ht := ih cs h_tl p (i + 1) (by
            intro j hj
            have h := hvalid (j + 1) (by simpa using Nat.succ_lt_succ hj)
            rw [show i + (j + 1) = (i + 1) + j from by omega] at h
            exact h)
          rw [hd, hin, ht]

/-- C10: the analysis is deterministic. `Plugin.run` on a module reads, of
all program state, only the tree and the attributes `add_meta` just wrote,
and those attributes are independent of whatever metadata state the tree
carried before the run — so two runs on the same tree, whatever each
run's-start attribute state, produce the identical diagnostic sequence. -/
theorem plugin_run_deterministic (body : List Node) (m₁ m₂ : Meta) :
    Plugin_run (Node.module body) m₁ = Plugin_run (Node.module body) m₂ := by
  unfold Plugin_run Visitor_visit
  simp only [dispatchRules]
  refine congrArg₂ _ rfl ?_
  exact visitList_agree (Node.module body) _ _
    (add_meta_nxt_agree (Node.module body) m₁ m₂)
    (sizeOf (children (Node.module body))) (children (Node.module body))
    le_rfl [] 0
    (by
      intro j hj
      simp only [List.nil_append, Nat.zero_add, nodeAt_singleton]
      simp [List.getElem?_eq_getElem hj])

end FlakeSimplify
